import Mathlib

/-!
Verification of the Game of Life engine (`src/gameOfLife.ts`, class `PlayingField`).

The engine stores one generation as an array `cells : Cell[]` of records
`{x, y, hasLife}`.  We embed that array as a `List Cell` and each method as a
pure function.  JavaScript's `Array.prototype.findIndex` (which returns `-1`
when nothing matches) is embedded as an `Option Nat`-valued function; the
source only ever compares the result with `-1` and indexes with it, which
matches the `none` / `some i` cases.  In-place element mutation
(`this.cells[i].hasLife = true`) is embedded as rebuilding the list with the
`i`-th entry updated.

`Array.prototype.forEach` visits only the elements present when iteration
starts (appends made by the callback are not visited), while the callback
reads the *current* array; `expandCellsWithNeighbors` is therefore a fold over
the original list whose accumulator is the growing array.

For the cloning claim the object identity of `Cell` records matters
(`getCells` is `this.cells.map(d => d)`: a new array holding the *same*
records).  A second model (`RefModel`) makes the JavaScript heap explicit:
cell records live in a `Heap` (allocation = append, a reference = an index)
and a field's array is a list of references.
-/

/-- Coordinate pair, as in the `Coords` type of the source. -/
structure Coords where
  x : Int
  y : Int
deriving DecidableEq, Repr

/-- A stored cell record: a coordinate pair plus its `hasLife` flag. -/
structure Cell where
  x : Int
  y : Int
  hasLife : Bool
deriving DecidableEq, Repr

/-- The coordinates of a stored cell. -/
def Cell.coords (cell : Cell) : Coords :=
  ⟨cell.x, cell.y⟩

/-- The coordinate test `cell.x === coords.x && cell.y === coords.y` used by
every lookup in the source. -/
def cellMatches (coords : Coords) (cell : Cell) : Bool :=
  cell.x == coords.x && cell.y == coords.y

/-- The playing field: a wrapper around the `cells` array. -/
structure PlayingField where
  cells : List Cell
deriving DecidableEq, Repr

namespace PlayingField

/-- `hasLifeAt`: the array is non-empty and filtering for a matching live cell
yields a non-empty result. -/
def hasLifeAt (f : PlayingField) (coords : Coords) : Bool :=
  !f.cells.isEmpty &&
    !(f.cells.filter fun cell => cellMatches coords cell && cell.hasLife).isEmpty

/-- `hasCellAt`: the array is non-empty and filtering for a matching cell
(alive or not) yields a non-empty result. -/
def hasCellAt (f : PlayingField) (coords : Coords) : Bool :=
  !f.cells.isEmpty && !(f.cells.filter (cellMatches coords)).isEmpty

/-- Embedding of `Array.prototype.findIndex` specialised to the coordinate
test: index of the first matching entry, `none` for the source's `-1`. -/
def findCellIdx (coords : Coords) : List Cell → Option Nat
  | [] => none
  | cell :: rest =>
    if cellMatches coords cell then some 0
    else (findCellIdx coords rest).map (· + 1)

/-- `findCellAt`: locate the storage slot of a coordinate. -/
def findCellAt (f : PlayingField) (coords : Coords) : Option Nat :=
  findCellIdx coords f.cells

/-- Embedding of the in-place mutation `this.cells[i].hasLife = true`:
rebuild the list with the `i`-th record's flag set. -/
def setAliveAt : List Cell → Nat → List Cell
  | [], _ => []
  | cell :: rest, 0 => { cell with hasLife := true } :: rest
  | cell :: rest, n + 1 => cell :: setAliveAt rest n

/-- `addLifeAt`: if a record exists at the coordinates set its flag, else push
a fresh live record. -/
def addLifeAt (f : PlayingField) (coords : Coords) : PlayingField :=
  match findCellIdx coords f.cells with
  | some i => ⟨setAliveAt f.cells i⟩
  | none => ⟨f.cells ++ [⟨coords.x, coords.y, true⟩]⟩

/-- `killLifeAt`: if a record exists at the coordinates splice it out of the
array (the record is removed, not flagged dead). -/
def killLifeAt (f : PlayingField) (coords : Coords) : PlayingField :=
  match findCellIdx coords f.cells with
  | some i => ⟨f.cells.eraseIdx i⟩
  | none => f

/-- The eight Moore-neighborhood offsets, in the `i`/`j` loop order of the
source (`i` outer from -1 to 1, `j` inner, skipping `(0,0)`). -/
def neighborOffsets : List (Int × Int) :=
  [(-1, -1), (-1, 0), (-1, 1), (0, -1), (0, 1), (1, -1), (1, 0), (1, 1)]

/-- `cellLivesNextRound`: count the live Moore neighbors of the record's
coordinates and apply the rule `(neighbors == 2 && cell.hasLife) ||
neighbors == 3`. -/
def cellLivesNextRound (f : PlayingField) (cell : Cell) : Bool :=
  let neighbors :=
    (neighborOffsets.filter fun o =>
      f.hasLifeAt ⟨cell.x + o.1, cell.y + o.2⟩).length
  (neighbors == 2 && cell.hasLife) || neighbors == 3

/-- One step of the expansion's inner loop: push a dead placeholder at the
neighbor coordinate unless some record is already stored there. -/
def expandStep (cell : Cell) (acc : List Cell) (o : Int × Int) : List Cell :=
  if hasCellAt ⟨acc⟩ ⟨cell.x + o.1, cell.y + o.2⟩ then acc
  else acc ++ [⟨cell.x + o.1, cell.y + o.2, false⟩]

/-- The expansion's body for one visited record: walk the eight offsets. -/
def expandAround (acc : List Cell) (cell : Cell) : List Cell :=
  neighborOffsets.foldl (expandStep cell) acc

/-- `expandCellsWithNeighbors`: visit every record present at the start
(`forEach` does not visit the callback's own appends) and push the missing
neighbors as dead placeholders. -/
def expandCellsWithNeighbors (f : PlayingField) : PlayingField :=
  ⟨f.cells.foldl expandAround f.cells⟩

/-- `toggleCell`: kill if currently alive, else add life. -/
def toggleCell (f : PlayingField) (coords : Coords) : PlayingField :=
  if f.hasLifeAt coords then f.killLifeAt coords else f.addLifeAt coords

/-- `spawnNew` returns the pair (returned next-generation field, the state the
receiver is left in).  The receiver first expands with dead placeholders, the
new field maps every stored record through the rule and keeps only the live
results, and the receiver's own array is then filtered down to its live
records. -/
def spawnNew (f : PlayingField) : PlayingField × PlayingField :=
  let expanded := expandCellsWithNeighbors f
  let cells :=
    (expanded.cells.map fun cell =>
        ({ x := cell.x, y := cell.y,
           hasLife := expanded.cellLivesNextRound cell } : Cell)).filter
      fun cell => cell.hasLife
  (⟨cells⟩, ⟨expanded.cells.filter fun cell => cell.hasLife⟩)

/-- `getCells`: `this.cells.map(d => d)` — a fresh array of the same records. -/
def getCells (f : PlayingField) : List Cell :=
  f.cells.map fun d => d

/-- `getDifferenceCells`: every record of `otherField`'s array whose
coordinates have no life in `this`. -/
def getDifferenceCells (f otherField : PlayingField) : List Cell :=
  otherField.getCells.filter fun cell => !f.hasLifeAt cell.coords

/-- `getClone`: a new field built from `getCells`. -/
def getClone (f : PlayingField) : PlayingField :=
  ⟨f.getCells⟩

/-- The key-uniqueness invariant of the spec: no two stored records share a
coordinate pair. -/
def distinctCoords (f : PlayingField) : Prop :=
  (f.cells.map Cell.coords).Nodup

instance (f : PlayingField) : Decidable f.distinctCoords := by
  unfold distinctCoords; infer_instance

end PlayingField

/-- Modelled from the spec: a coordinate's eight Moore neighbors ("the 8 cells
horizontally, vertically, and diagonally adjacent"). -/
def mooreNeighbors (c : Coords) : List Coords :=
  PlayingField.neighborOffsets.map fun o => ⟨c.x + o.1, c.y + o.2⟩

/-- Modelled from the spec: the number of live Moore neighbors of `c` for the
live predicate `live`. -/
def liveNeighborCount (live : Coords → Bool) (c : Coords) : Nat :=
  ((mooreNeighbors c).filter live).length

/-- Modelled from the spec: the standard Conway step — live next round iff
exactly 3 live Moore neighbors, or exactly 2 live Moore neighbors and
currently live. -/
def conwayStep (live : Coords → Bool) (c : Coords) : Bool :=
  liveNeighborCount live c == 3 || (liveNeighborCount live c == 2 && live c)

/-- The horizontal blinker row of the spec's oscillator property. -/
def blinker : PlayingField :=
  ⟨[⟨0, 0, true⟩, ⟨1, 0, true⟩, ⟨2, 0, true⟩]⟩

/-!
The reference (heap) model.  JavaScript `Cell` records are mutable objects:
`getCells` copies the array but not the records, so a clone shares its records
with the original and `this.cells[i].hasLife = true` is visible through both.
The heap is the list of allocated records (a reference is an index, allocation
appends) and a field's `cells` array is a list of references.
-/

namespace RefModel

/-- The allocated cell records; an index into this list is a reference. -/
abbrev Heap := List Cell

/-- A field's `cells` array: references into the heap. -/
abbrev Refs := List Nat

/-- Read a record through a reference (references created by the operations
are always in range; the default is never reached from reachable states). -/
def deref (h : Heap) (r : Nat) : Cell :=
  h.getD r ⟨0, 0, false⟩

/-- `hasLifeAt` over the reference array. -/
def hasLifeAtH (h : Heap) (refs : Refs) (coords : Coords) : Bool :=
  !refs.isEmpty &&
    !(refs.filter fun r =>
        cellMatches coords (deref h r) && (deref h r).hasLife).isEmpty

/-- `hasCellAt` over the reference array. -/
def hasCellAtH (h : Heap) (refs : Refs) (coords : Coords) : Bool :=
  !refs.isEmpty && !(refs.filter fun r => cellMatches coords (deref h r)).isEmpty

/-- `findIndex` over the reference array. -/
def findRefIdx (h : Heap) (coords : Coords) : Refs → Option Nat
  | [] => none
  | r :: rest =>
    if cellMatches coords (deref h r) then some 0
    else (findRefIdx h coords rest).map (· + 1)

/-- `addLifeAt`: on a hit, mutate the *heap record* in place (visible through
every array holding the same reference); on a miss, allocate a fresh live
record and push its reference. -/
def addLifeAtH (h : Heap) (refs : Refs) (coords : Coords) : Heap × Refs :=
  match findRefIdx h coords refs with
  | some i => (PlayingField.setAliveAt h (refs.getD i 0), refs)
  | none => (h ++ [⟨coords.x, coords.y, true⟩], refs ++ [h.length])

/-- `killLifeAt`: splice the reference out of the array; the heap record
becomes garbage but is not touched. -/
def killLifeAtH (h : Heap) (refs : Refs) (coords : Coords) : Heap × Refs :=
  match findRefIdx h coords refs with
  | some i => (h, refs.eraseIdx i)
  | none => (h, refs)

/-- `toggleCell` over the reference model. -/
def toggleCellH (h : Heap) (refs : Refs) (coords : Coords) : Heap × Refs :=
  if hasLifeAtH h refs coords then killLifeAtH h refs coords
  else addLifeAtH h refs coords

/-- Live-neighbor rule over the reference model. -/
def cellLivesNextRoundH (h : Heap) (refs : Refs) (cell : Cell) : Bool :=
  let neighbors :=
    (PlayingField.neighborOffsets.filter fun o =>
      hasLifeAtH h refs ⟨cell.x + o.1, cell.y + o.2⟩).length
  (neighbors == 2 && cell.hasLife) || neighbors == 3

/-- One expansion step: allocate a dead placeholder and push its reference
unless the neighbor coordinate is already stored. -/
def expandStepH (cell : Cell) (s : Heap × Refs) (o : Int × Int) : Heap × Refs :=
  if hasCellAtH s.1 s.2 ⟨cell.x + o.1, cell.y + o.2⟩ then s
  else (s.1 ++ [⟨cell.x + o.1, cell.y + o.2, false⟩], s.2 ++ [s.1.length])

/-- Expansion body for one visited reference (the record's coordinates are
never written, so reading them once at visit time is exact). -/
def expandAroundH (s : Heap × Refs) (r : Nat) : Heap × Refs :=
  PlayingField.neighborOffsets.foldl (expandStepH (deref s.1 r)) s

/-- `expandCellsWithNeighbors`: `forEach` over the references present at the
start, accumulating heap and array. -/
def expandH (h : Heap) (refs : Refs) : Heap × Refs :=
  refs.foldl expandAroundH (h, refs)

/-- `spawnNew` over the reference model: expand, allocate one fresh record per
stored record via the rule (`map`), return the references of the live ones as
the new field, and filter the receiver's own array down to its live
references.  Result: (heap, new field's refs, receiver's refs). -/
def spawnNewH (h : Heap) (refs : Refs) : Heap × Refs × Refs :=
  let h1 := (expandH h refs).1
  let refs1 := (expandH h refs).2
  let newCells := refs1.map fun r =>
    ({ x := (deref h1 r).x, y := (deref h1 r).y,
       hasLife := cellLivesNextRoundH h1 refs1 (deref h1 r) } : Cell)
  let h2 := h1 ++ newCells
  let newRefs :=
    ((List.range newCells.length).map (· + h1.length)).filter fun r =>
      (deref h2 r).hasLife
  (h2, newRefs, refs1.filter fun r => (deref h1 r).hasLife)

/-- `getCells`: `map(d => d)` returns the same references in a fresh array. -/
def getCellsH (refs : Refs) : Refs :=
  refs.map fun d => d

/-- `getClone`: a field holding `getCells` — the very same references. -/
def getCloneH (refs : Refs) : Refs :=
  getCellsH refs

/-- One user-visible mutation of a field, as enumerated by the cloning claim. -/
inductive MutatorOp where
  | toggle (coords : Coords)
  | add (coords : Coords)
  | kill (coords : Coords)
  | spawn
deriving DecidableEq, Repr

/-- Apply a mutator to a field in the reference model, returning the new heap
and the receiver's new reference array. -/
def applyMutatorH (m : MutatorOp) (h : Heap) (refs : Refs) : Heap × Refs :=
  match m with
  | .toggle c => toggleCellH h refs c
  | .add c => addLifeAtH h refs c
  | .kill c => killLifeAtH h refs c
  | .spawn => ((spawnNewH h refs).1, (spawnNewH h refs).2.2)

end RefModel

/-!
Basic characterizations of the query operations.
-/

namespace PlayingField

/-- The redundant non-emptiness guard collapses: non-emptiness of a filter is
`any`. -/
theorem guard_filter_eq_any (p : Cell → Bool) (l : List Cell) :
    (!l.isEmpty && !(l.filter p).isEmpty) = l.any p := by
  cases l with
  | nil => rfl
  | cons a t =>
    rw [Bool.eq_iff_iff]
    simp [List.isEmpty_iff, List.filter_eq_nil_iff, List.any_eq_true]
    cases hpa : p a <;> simp [hpa]

theorem hasLifeAt_eq_any (f : PlayingField) (c : Coords) :
    f.hasLifeAt c = f.cells.any fun cell => cellMatches c cell && cell.hasLife :=
  guard_filter_eq_any _ _

theorem hasCellAt_eq_any (f : PlayingField) (c : Coords) :
    f.hasCellAt c = f.cells.any (cellMatches c) :=
  guard_filter_eq_any _ _

theorem cellMatches_iff {c : Coords} {cell : Cell} :
    cellMatches c cell = true ↔ cell.coords = c := by
  obtain ⟨cx, cy⟩ := c
  simp [cellMatches, Cell.coords, Coords.mk.injEq]

theorem cellMatches_eq_false {c : Coords} {cell : Cell} :
    cellMatches c cell = false ↔ cell.coords ≠ c := by
  rw [← Bool.not_eq_true, not_iff_not, cellMatches_iff]

theorem hasLifeAt_iff {f : PlayingField} {c : Coords} :
    f.hasLifeAt c = true ↔
      ∃ cell ∈ f.cells, cell.coords = c ∧ cell.hasLife = true := by
  rw [hasLifeAt_eq_any, List.any_eq_true]
  constructor
  · rintro ⟨cell, hm, hp⟩
    rw [Bool.and_eq_true] at hp
    exact ⟨cell, hm, cellMatches_iff.mp hp.1, hp.2⟩
  · rintro ⟨cell, hm, hc, hl⟩
    exact ⟨cell, hm, by rw [Bool.and_eq_true]; exact ⟨cellMatches_iff.mpr hc, hl⟩⟩

theorem hasCellAt_iff {f : PlayingField} {c : Coords} :
    f.hasCellAt c = true ↔ ∃ cell ∈ f.cells, cell.coords = c := by
  rw [hasCellAt_eq_any, List.any_eq_true]
  constructor
  · rintro ⟨cell, hm, hp⟩
    exact ⟨cell, hm, cellMatches_iff.mp hp⟩
  · rintro ⟨cell, hm, hc⟩
    exact ⟨cell, hm, cellMatches_iff.mpr hc⟩

/-- Appending records that are all dead does not change `hasLifeAt`. -/
theorem hasLifeAt_append_dead {l e : List Cell}
    (he : ∀ x ∈ e, x.hasLife = false) (c : Coords) :
    (PlayingField.mk (l ++ e)).hasLifeAt c = (PlayingField.mk l).hasLifeAt c := by
  rw [hasLifeAt_eq_any, hasLifeAt_eq_any]
  show (l ++ e).any _ = l.any _
  rw [List.any_append]
  have : e.any (fun cell => cellMatches c cell && cell.hasLife) = false := by
    rw [← Bool.not_eq_true, List.any_eq_true]
    rintro ⟨x, hx, hp⟩
    rw [Bool.and_eq_true] at hp
    rw [he x hx] at hp
    exact Bool.false_ne_true hp.2
  rw [this, Bool.or_false]

/-- Stored coordinates stay stored when the array is extended. -/
theorem hasCellAt_append {l e : List Cell} {c : Coords}
    (h : (PlayingField.mk l).hasCellAt c = true) :
    (PlayingField.mk (l ++ e)).hasCellAt c = true := by
  rw [hasCellAt_eq_any] at h ⊢
  show (l ++ e).any _ = true
  rw [List.any_append, h, Bool.true_or]

end PlayingField

/-!
Structure of the expansion pass: it only ever appends dead placeholder
records, it covers every Moore neighbor of every visited record, and it keeps
coordinates pairwise distinct.
-/

namespace PlayingField

/-- A fold whose every step appends only dead records appends only dead
records overall. -/
theorem foldl_extends_dead {β : Type} {g : List Cell → β → List Cell}
    (hg : ∀ acc b, ∃ t, g acc b = acc ++ t ∧ ∀ x ∈ t, x.hasLife = false) :
    ∀ (bs : List β) (acc : List Cell),
      ∃ t, bs.foldl g acc = acc ++ t ∧ ∀ x ∈ t, x.hasLife = false := by
  intro bs
  induction bs with
  | nil => exact fun acc => ⟨[], by simp⟩
  | cons b rest ih =>
    intro acc
    obtain ⟨t₁, h₁, hd₁⟩ := hg acc b
    obtain ⟨t₂, h₂, hd₂⟩ := ih (g acc b)
    refine ⟨t₁ ++ t₂, ?_, ?_⟩
    · rw [List.foldl_cons, h₂, h₁, List.append_assoc]
    · intro x hx
      rcases List.mem_append.mp hx with hx | hx
      · exact hd₁ x hx
      · exact hd₂ x hx

theorem expandStep_extends (cell : Cell) (acc : List Cell) (o : Int × Int) :
    ∃ t, expandStep cell acc o = acc ++ t ∧ ∀ x ∈ t, x.hasLife = false := by
  unfold expandStep
  split
  · exact ⟨[], by simp⟩
  · exact ⟨[⟨cell.x + o.1, cell.y + o.2, false⟩], rfl, by simp⟩

theorem expandAround_extends (acc : List Cell) (cell : Cell) :
    ∃ t, expandAround acc cell = acc ++ t ∧ ∀ x ∈ t, x.hasLife = false :=
  foldl_extends_dead (expandStep_extends cell) neighborOffsets acc

/-- The whole expansion pass only appends dead placeholder records. -/
theorem expand_extends (f : PlayingField) :
    ∃ t, (expandCellsWithNeighbors f).cells = f.cells ++ t ∧
      ∀ x ∈ t, x.hasLife = false :=
  foldl_extends_dead (fun acc cell => expandAround_extends acc cell)
    f.cells f.cells

/-- Expansion never creates (or removes) life at any coordinate. -/
theorem hasLifeAt_expand (f : PlayingField) (c : Coords) :
    (expandCellsWithNeighbors f).hasLifeAt c = f.hasLifeAt c := by
  obtain ⟨t, ht, hd⟩ := expand_extends f
  calc (expandCellsWithNeighbors f).hasLifeAt c
      = (PlayingField.mk (f.cells ++ t)).hasLifeAt c := by rw [← ht]
    _ = (PlayingField.mk f.cells).hasLifeAt c := hasLifeAt_append_dead hd c
    _ = f.hasLifeAt c := rfl

/-- Every coordinate stored before expansion is still stored afterwards. -/
theorem hasCellAt_expand_of (f : PlayingField) {c : Coords}
    (h : f.hasCellAt c = true) :
    (expandCellsWithNeighbors f).hasCellAt c = true := by
  obtain ⟨t, ht, _⟩ := expand_extends f
  rw [show expandCellsWithNeighbors f = ⟨f.cells ++ t⟩ from
    congrArg PlayingField.mk ht]
  exact hasCellAt_append h

/-- Presence of a coordinate survives any tail of the expansion fold. -/
theorem hasCellAt_foldl_of {β : Type} {g : List Cell → β → List Cell}
    (hg : ∀ acc b, ∃ t, g acc b = acc ++ t ∧ ∀ x ∈ t, x.hasLife = false)
    (bs : List β) (acc : List Cell) {c : Coords}
    (h : (PlayingField.mk acc).hasCellAt c = true) :
    (PlayingField.mk (bs.foldl g acc)).hasCellAt c = true := by
  obtain ⟨t, ht, _⟩ := foldl_extends_dead hg bs acc
  rw [ht]
  exact hasCellAt_append h

/-- After one expansion step at offset `o`, the record's `o`-neighbor
coordinate is stored. -/
theorem expandStep_covers (cell : Cell) (acc : List Cell) (o : Int × Int) :
    (PlayingField.mk (expandStep cell acc o)).hasCellAt
      ⟨cell.x + o.1, cell.y + o.2⟩ = true := by
  unfold expandStep
  split
  · assumption
  · refine hasCellAt_iff.mpr ⟨⟨cell.x + o.1, cell.y + o.2, false⟩, ?_, rfl⟩
    simp

/-- The inner loop stores the neighbor coordinate of every offset it walks. -/
theorem foldl_expandStep_covers (cell : Cell) :
    ∀ (offs : List (Int × Int)) (acc : List Cell), ∀ o ∈ offs,
      (PlayingField.mk (offs.foldl (expandStep cell) acc)).hasCellAt
        ⟨cell.x + o.1, cell.y + o.2⟩ = true := by
  intro offs
  induction offs with
  | nil => intro acc o ho; cases ho
  | cons o' rest ih =>
    intro acc o ho
    rcases List.mem_cons.mp ho with rfl | ho
    · rw [List.foldl_cons]
      exact hasCellAt_foldl_of (expandStep_extends cell) rest _
        (expandStep_covers cell acc o)
    · rw [List.foldl_cons]
      exact ih _ o ho

/-- After the whole pass, every Moore neighbor of every visited record is
stored. -/
theorem foldl_expandAround_covers :
    ∀ (todo : List Cell) (acc : List Cell), ∀ cell ∈ todo,
      ∀ o ∈ neighborOffsets,
        (PlayingField.mk (todo.foldl expandAround acc)).hasCellAt
          ⟨cell.x + o.1, cell.y + o.2⟩ = true := by
  intro todo
  induction todo with
  | nil => intro acc cell hc; cases hc
  | cons cell' rest ih =>
    intro acc cell hc o ho
    rcases List.mem_cons.mp hc with rfl | hc
    · rw [List.foldl_cons]
      exact hasCellAt_foldl_of (fun a b => expandAround_extends a b) rest _
        (foldl_expandStep_covers cell neighborOffsets acc o ho)
    · rw [List.foldl_cons]
      exact ih _ cell hc o ho

theorem expand_covers (f : PlayingField) {cell : Cell} (hc : cell ∈ f.cells)
    {o : Int × Int} (ho : o ∈ neighborOffsets) :
    (expandCellsWithNeighbors f).hasCellAt
      ⟨cell.x + o.1, cell.y + o.2⟩ = true :=
  foldl_expandAround_covers f.cells f.cells cell hc o ho

/-- One expansion step keeps stored coordinates pairwise distinct. -/
theorem expandStep_nodup {cell : Cell} {acc : List Cell} {o : Int × Int}
    (h : (acc.map Cell.coords).Nodup) :
    ((expandStep cell acc o).map Cell.coords).Nodup := by
  unfold expandStep
  split
  · exact h
  · next hnc =>
    rw [List.map_append, List.nodup_append]
    simp only [List.map_cons, List.map_nil]
    refine ⟨h, List.nodup_singleton _, ?_⟩
    rw [List.disjoint_singleton]
    intro hmem
    rw [List.mem_map] at hmem
    obtain ⟨x, hx, hcoords⟩ := hmem
    rw [Bool.not_eq_true] at hnc
    have : (PlayingField.mk acc).hasCellAt ⟨cell.x + o.1, cell.y + o.2⟩ = true :=
      hasCellAt_iff.mpr ⟨x, hx, by simpa using hcoords⟩
    rw [hnc] at this
    exact Bool.false_ne_true this

/-- A fold whose steps preserve coordinate distinctness preserves it. -/
theorem foldl_nodup {β : Type} {g : List Cell → β → List Cell}
    (hg : ∀ acc b, (acc.map Cell.coords).Nodup →
      ((g acc b).map Cell.coords).Nodup) :
    ∀ (bs : List β) (acc : List Cell), (acc.map Cell.coords).Nodup →
      ((bs.foldl g acc).map Cell.coords).Nodup := by
  intro bs
  induction bs with
  | nil => exact fun acc h => h
  | cons b rest ih =>
    intro acc h
    rw [List.foldl_cons]
    exact ih _ (hg acc b h)

theorem expandAround_nodup (cell : Cell) {acc : List Cell}
    (h : (acc.map Cell.coords).Nodup) :
    ((expandAround acc cell).map Cell.coords).Nodup :=
  foldl_nodup (fun _ _ ha => expandStep_nodup ha) neighborOffsets acc h

/-- Expansion preserves the key-uniqueness invariant. -/
theorem distinctCoords_expand {f : PlayingField} (h : f.distinctCoords) :
    (expandCellsWithNeighbors f).distinctCoords :=
  foldl_nodup (fun _ b ha => expandAround_nodup b ha) f.cells f.cells h

end PlayingField

/-!
Unfolding the mutators one array entry at a time, and their effect on
`hasLifeAt`.
-/

namespace PlayingField

theorem addLifeAt_nil (c : Coords) :
    (PlayingField.mk []).addLifeAt c = ⟨[⟨c.x, c.y, true⟩]⟩ :=
  rfl

theorem addLifeAt_cons (c : Coords) (a : Cell) (l : List Cell) :
    (PlayingField.mk (a :: l)).addLifeAt c =
      if cellMatches c a then ⟨{ a with hasLife := true } :: l⟩
      else ⟨a :: ((PlayingField.mk l).addLifeAt c).cells⟩ := by
  cases hm : cellMatches c a with
  | true => simp [addLifeAt, findCellIdx, hm, setAliveAt]
  | false =>
    cases hf : findCellIdx c l with
    | none => simp [addLifeAt, findCellIdx, hm, hf]
    | some i => simp [addLifeAt, findCellIdx, hm, hf, setAliveAt]

theorem killLifeAt_nil (c : Coords) :
    (PlayingField.mk []).killLifeAt c = ⟨[]⟩ :=
  rfl

theorem killLifeAt_cons (c : Coords) (a : Cell) (l : List Cell) :
    (PlayingField.mk (a :: l)).killLifeAt c =
      if cellMatches c a then ⟨l⟩
      else ⟨a :: ((PlayingField.mk l).killLifeAt c).cells⟩ := by
  cases hm : cellMatches c a with
  | true => simp [killLifeAt, findCellIdx, hm]
  | false =>
    cases hf : findCellIdx c l with
    | none => simp [killLifeAt, findCellIdx, hm, hf]
    | some i => simp [killLifeAt, findCellIdx, hm, hf, List.eraseIdx]

/-- After `addLifeAt c` the coordinate `c` is alive. -/
theorem hasLifeAt_addLifeAt_self (f : PlayingField) (c : Coords) :
    (f.addLifeAt c).hasLifeAt c = true := by
  obtain ⟨l⟩ := f
  induction l with
  | nil =>
    rw [addLifeAt_nil]
    exact hasLifeAt_iff.mpr ⟨⟨c.x, c.y, true⟩, by simp, by simp [Cell.coords], rfl⟩
  | cons a t ih =>
    rw [addLifeAt_cons]
    cases hm : cellMatches c a with
    | true =>
      simp only [if_pos rfl]
      refine hasLifeAt_iff.mpr ⟨{ a with hasLife := true }, by simp, ?_, rfl⟩
      have := cellMatches_iff.mp hm
      simpa [Cell.coords] using this
    | false =>
      simp only [Bool.false_eq_true, if_false]
      obtain ⟨cell, hmem, hco, hlife⟩ := hasLifeAt_iff.mp ih
      exact hasLifeAt_iff.mpr ⟨cell, List.mem_cons_of_mem a hmem, hco, hlife⟩

/-- `addLifeAt c` does not change life at any other coordinate. -/
theorem hasLifeAt_addLifeAt_other (f : PlayingField) {c d : Coords}
    (hne : d ≠ c) :
    (f.addLifeAt c).hasLifeAt d = f.hasLifeAt d := by
  obtain ⟨l⟩ := f
  induction l with
  | nil =>
    rw [addLifeAt_nil, hasLifeAt_eq_any, hasLifeAt_eq_any]
    have : cellMatches d (⟨c.x, c.y, true⟩ : Cell) = false := by
      rw [cellMatches_eq_false]
      simpa [Cell.coords] using fun h => hne h.symm
    simp [this]
  | cons a t ih =>
    rw [addLifeAt_cons]
    cases hm : cellMatches c a with
    | true =>
      rw [if_pos rfl]
      rw [hasLifeAt_eq_any, hasLifeAt_eq_any, List.any_cons, List.any_cons]
      have hda : cellMatches d a = false := by
        rw [cellMatches_eq_false]
        rw [cellMatches_iff.mp hm]
        exact fun h => hne h.symm
      have hda' : cellMatches d { a with hasLife := true } = false := by
        rw [cellMatches_eq_false] at hda ⊢
        simpa [Cell.coords] using hda
      rw [hda, hda']
      simp
    | false =>
      simp only [Bool.false_eq_true, if_false]
      rw [hasLifeAt_eq_any, hasLifeAt_eq_any, List.any_cons, List.any_cons,
        ← hasLifeAt_eq_any, ← hasLifeAt_eq_any, ih]

/-- `killLifeAt c` does not change life at any other coordinate. -/
theorem hasLifeAt_killLifeAt_other (f : PlayingField) {c d : Coords}
    (hne : d ≠ c) :
    (f.killLifeAt c).hasLifeAt d = f.hasLifeAt d := by
  obtain ⟨l⟩ := f
  induction l with
  | nil => rw [killLifeAt_nil]
  | cons a t ih =>
    rw [killLifeAt_cons]
    cases hm : cellMatches c a with
    | true =>
      simp only [if_pos rfl]
      rw [hasLifeAt_eq_any, hasLifeAt_eq_any, List.any_cons]
      have hda : cellMatches d a = false := by
        rw [cellMatches_eq_false]
        rw [cellMatches_iff.mp hm]
        exact fun h => hne h.symm
      rw [hda]
      simp
    | false =>
      simp only [Bool.false_eq_true, if_false]
      rw [hasLifeAt_eq_any, hasLifeAt_eq_any, List.any_cons, List.any_cons,
        ← hasLifeAt_eq_any, ← hasLifeAt_eq_any, ih]

/-- Under the key-uniqueness invariant, `killLifeAt c` leaves no life at `c`
(the one record at `c` is spliced out whole). -/
theorem hasLifeAt_killLifeAt_self {f : PlayingField} (hnd : f.distinctCoords)
    (c : Coords) :
    (f.killLifeAt c).hasLifeAt c = false := by
  obtain ⟨l⟩ := f
  unfold distinctCoords at hnd
  induction l with
  | nil => rw [killLifeAt_nil]; rfl
  | cons a t ih =>
    simp only [List.map_cons, List.nodup_cons] at hnd
    rw [killLifeAt_cons]
    cases hm : cellMatches c a with
    | true =>
      simp only [if_pos rfl]
      rw [← Bool.not_eq_true, hasLifeAt_iff]
      rintro ⟨cell, hmem, hco, -⟩
      refine hnd.1 ?_
      rw [List.mem_map]
      refine ⟨cell, hmem, ?_⟩
      rw [hco, ← cellMatches_iff.mp hm]
    | false =>
      simp only [Bool.false_eq_true, if_false]
      rw [hasLifeAt_eq_any, List.any_cons, hm, ← hasLifeAt_eq_any]
      simp only [Bool.false_and, Bool.false_or]
      exact ih hnd.2

/-- `toggleCell` negates life at the toggled coordinate. -/
theorem hasLifeAt_toggleCell_self {f : PlayingField} (hnd : f.distinctCoords)
    (c : Coords) :
    (f.toggleCell c).hasLifeAt c = !f.hasLifeAt c := by
  unfold toggleCell
  cases hl : f.hasLifeAt c with
  | true => rw [if_pos rfl, hasLifeAt_killLifeAt_self hnd]; rfl
  | false =>
    simp only [Bool.false_eq_true, if_false]
    rw [hasLifeAt_addLifeAt_self]
    rfl

/-- `toggleCell` leaves every other coordinate unchanged. -/
theorem hasLifeAt_toggleCell_other (f : PlayingField) {c d : Coords}
    (hne : d ≠ c) :
    (f.toggleCell c).hasLifeAt d = f.hasLifeAt d := by
  unfold toggleCell
  cases hl : f.hasLifeAt c with
  | true => simp only [if_pos rfl]; exact hasLifeAt_killLifeAt_other f hne
  | false =>
    simp only [Bool.false_eq_true, if_false]
    exact hasLifeAt_addLifeAt_other f hne

end PlayingField

/-!
Preservation of the key-uniqueness invariant by each operation, and the
structure of `spawnNew`'s two results.
-/

namespace PlayingField

/-- Setting a record's flag in place does not change the coordinate list. -/
theorem map_coords_setAliveAt :
    ∀ (l : List Cell) (i : Nat),
      (setAliveAt l i).map Cell.coords = l.map Cell.coords := by
  intro l
  induction l with
  | nil => intro i; rfl
  | cons a t ih =>
    intro i
    cases i with
    | zero => simp [setAliveAt, Cell.coords]
    | succ n => simp [setAliveAt, ih n]

theorem findCellIdx_eq_none_iff {c : Coords} {l : List Cell} :
    findCellIdx c l = none ↔ ∀ cell ∈ l, cellMatches c cell = false := by
  induction l with
  | nil => simp [findCellIdx]
  | cons a t ih =>
    cases hm : cellMatches c a with
    | true => simp [findCellIdx, hm]
    | false => simp [findCellIdx, hm, ih]

theorem distinctCoords_addLifeAt {f : PlayingField} (h : f.distinctCoords)
    (c : Coords) : (f.addLifeAt c).distinctCoords := by
  unfold distinctCoords at h ⊢
  unfold addLifeAt
  cases hf : findCellIdx c f.cells with
  | some i => simpa [map_coords_setAliveAt] using h
  | none =>
    simp only
    rw [List.map_append, List.nodup_append]
    simp only [List.map_cons, List.map_nil]
    refine ⟨h, List.nodup_singleton _, ?_⟩
    rw [List.disjoint_singleton]
    intro hmem
    rw [List.mem_map] at hmem
    obtain ⟨x, hx, hcoords⟩ := hmem
    have := findCellIdx_eq_none_iff.mp hf x hx
    rw [cellMatches_eq_false] at this
    exact this hcoords

theorem distinctCoords_killLifeAt {f : PlayingField} (h : f.distinctCoords)
    (c : Coords) : (f.killLifeAt c).distinctCoords := by
  unfold distinctCoords at h ⊢
  unfold killLifeAt
  cases hf : findCellIdx c f.cells with
  | some i =>
    exact ((List.eraseIdx_sublist f.cells i).map Cell.coords).nodup h
  | none => exact h

theorem distinctCoords_toggleCell {f : PlayingField} (h : f.distinctCoords)
    (c : Coords) : (f.toggleCell c).distinctCoords := by
  unfold toggleCell
  split
  · exact distinctCoords_killLifeAt h c
  · exact distinctCoords_addLifeAt h c

/-- The state `spawnNew` leaves its receiver in: exactly the records of the
original array that carry life, in their original order. -/
theorem spawnNew_snd_cells (f : PlayingField) :
    (f.spawnNew).2.cells = f.cells.filter fun cell => cell.hasLife := by
  obtain ⟨t, ht, hd⟩ := expand_extends f
  show (expandCellsWithNeighbors f).cells.filter _ = _
  rw [ht, List.filter_append]
  have : t.filter (fun cell => cell.hasLife) = [] := by
    rw [List.filter_eq_nil_iff]
    intro x hx
    rw [hd x hx]
    exact Bool.false_ne_true
  rw [this, List.append_nil]

/-- Every record stored in the field returned by `spawnNew` carries life. -/
theorem spawnNew_fst_all_alive (f : PlayingField) :
    ((f.spawnNew).1.cells.all fun cell => cell.hasLife) = true := by
  rw [List.all_eq_true]
  intro cell hcell
  exact (List.mem_filter.mp hcell).2

/-- Every record `spawnNew` leaves in its receiver carries life. -/
theorem spawnNew_snd_all_alive (f : PlayingField) :
    ((f.spawnNew).2.cells.all fun cell => cell.hasLife) = true := by
  rw [List.all_eq_true]
  intro cell hcell
  exact (List.mem_filter.mp hcell).2

theorem distinctCoords_spawnNew_snd {f : PlayingField} (h : f.distinctCoords) :
    (f.spawnNew).2.distinctCoords := by
  unfold distinctCoords
  rw [spawnNew_snd_cells]
  exact ((f.cells.filter_sublist).map Cell.coords).nodup h

/-- Mapping every record through the rule keeps its coordinates. -/
theorem map_coords_ruleMap (g : Cell → Bool) (l : List Cell) :
    ((l.map fun cell =>
        ({ x := cell.x, y := cell.y, hasLife := g cell } : Cell)).map
      Cell.coords) = l.map Cell.coords := by
  induction l with
  | nil => rfl
  | cons a t ih => simp only [List.map_cons, ih]; rfl

/-- The coordinates stored by the returned field form a sublist of the
expanded coordinates (the rule map keeps coordinates, the filter drops some). -/
theorem spawnNew_fst_coords_sublist (f : PlayingField) :
    ((f.spawnNew).1.cells.map Cell.coords).Sublist
      ((expandCellsWithNeighbors f).cells.map Cell.coords) := by
  have h1 :
      (f.spawnNew).1.cells =
        ((expandCellsWithNeighbors f).cells.map fun cell =>
          ({ x := cell.x, y := cell.y,
             hasLife := (expandCellsWithNeighbors f).cellLivesNextRound cell } :
            Cell)).filter (fun cell => cell.hasLife) := rfl
  rw [h1]
  refine (List.Sublist.map Cell.coords (List.filter_sublist _)).trans ?_
  rw [map_coords_ruleMap]

theorem distinctCoords_spawnNew_fst {f : PlayingField} (h : f.distinctCoords) :
    (f.spawnNew).1.distinctCoords :=
  (spawnNew_fst_coords_sublist f).nodup (distinctCoords_expand h)

theorem getClone_cells (f : PlayingField) : (f.getClone).cells = f.cells := by
  simp [getClone, getCells]

theorem distinctCoords_getClone {f : PlayingField} (h : f.distinctCoords) :
    (f.getClone).distinctCoords := by
  unfold distinctCoords
  rw [getClone_cells]
  exact h

end PlayingField

/-!
The generation step agrees with the standard Conway rule.
-/

namespace PlayingField

/-- The spec-side neighbor count unfolds to a filter over the offset list. -/
theorem liveNeighborCount_eq (live : Coords → Bool) (c : Coords) :
    liveNeighborCount live c =
      (neighborOffsets.filter fun o => live ⟨c.x + o.1, c.y + o.2⟩).length := by
  rw [liveNeighborCount, mooreNeighbors, List.filter_map, List.length_map]
  rfl

/-- The offset list is closed under negation: adjacency is symmetric. -/
theorem neg_mem_neighborOffsets :
    ∀ o ∈ neighborOffsets, ((-o.1, -o.2) : Int × Int) ∈ neighborOffsets := by
  decide

/-- The source rule evaluated on a record stored at `c` is the spec's Conway
step at `c`, provided the evaluation field has the same life as `f`
everywhere and the record's flag agrees with `f`'s life at `c`. -/
theorem cellLivesNextRound_eq_conwayStep {E f : PlayingField} {cell : Cell}
    {c : Coords} (hE : ∀ d, E.hasLifeAt d = f.hasLifeAt d)
    (hco : cell.coords = c) (hlife : cell.hasLife = f.hasLifeAt c) :
    E.cellLivesNextRound cell = conwayStep (f.hasLifeAt) c := by
  have hx : cell.x = c.x := congrArg Coords.x hco
  have hy : cell.y = c.y := congrArg Coords.y hco
  unfold cellLivesNextRound conwayStep
  rw [liveNeighborCount_eq]
  have hcount :
      (neighborOffsets.filter fun o =>
          E.hasLifeAt ⟨cell.x + o.1, cell.y + o.2⟩) =
        neighborOffsets.filter fun o =>
          f.hasLifeAt ⟨c.x + o.1, c.y + o.2⟩ := by
    refine List.filter_congr fun o _ => ?_
    rw [hx, hy, hE]
  rw [hcount, hlife]
  exact Bool.or_comm _ _

/-- A coordinate not stored after expansion has no live Moore neighbor in the
original field, so the Conway step leaves it dead. -/
theorem conwayStep_eq_false_of_not_stored {f : PlayingField} {c : Coords}
    (hc : (expandCellsWithNeighbors f).hasCellAt c = false) :
    conwayStep (f.hasLifeAt) c = false := by
  have hnone : ∀ o ∈ neighborOffsets,
      f.hasLifeAt ⟨c.x + o.1, c.y + o.2⟩ = false := by
    intro o ho
    by_contra hlive
    rw [Bool.not_eq_false] at hlive
    obtain ⟨ent, hent, hentc, -⟩ := hasLifeAt_iff.mp hlive
    have hcov := expand_covers f hent (neg_mem_neighborOffsets o ho)
    have hex : ent.x = c.x + o.1 := congrArg Coords.x hentc
    have hey : ent.y = c.y + o.2 := congrArg Coords.y hentc
    have hback : (⟨ent.x + (-o.1, -o.2).1, ent.y + (-o.1, -o.2).2⟩ : Coords)
        = c := by
      simp only [hex, hey]
      have : c.x + o.1 + -o.1 = c.x := by ring
      have h2 : c.y + o.2 + -o.2 = c.y := by ring
      simp [this, h2]
    rw [hback] at hcov
    rw [hcov] at hc
    exact Bool.noConfusion hc
  have hzero : liveNeighborCount (f.hasLifeAt) c = 0 := by
    rw [liveNeighborCount_eq]
    have : (neighborOffsets.filter fun o =>
        f.hasLifeAt ⟨c.x + o.1, c.y + o.2⟩) = [] := by
      rw [List.filter_eq_nil_iff]
      intro o ho
      rw [hnone o ho]
      exact Bool.false_ne_true
    rw [this]
    rfl
  unfold conwayStep
  rw [hzero]
  rfl

/-- Membership shape of the returned generation: a coordinate is live there
iff some expanded record at that coordinate passes the rule. -/
theorem spawnNew_fst_hasLife_iff {f : PlayingField} {c : Coords} :
    (f.spawnNew).1.hasLifeAt c = true ↔
      ∃ x ∈ (expandCellsWithNeighbors f).cells, x.coords = c ∧
        (expandCellsWithNeighbors f).cellLivesNextRound x = true := by
  rw [hasLifeAt_iff]
  constructor
  · rintro ⟨cell, hmem, hco, hlife⟩
    obtain ⟨hmem', -⟩ := List.mem_filter.mp hmem
    obtain ⟨x, hx, rfl⟩ := List.mem_map.mp hmem'
    exact ⟨x, hx, hco, hlife⟩
  · rintro ⟨x, hx, hco, hrule⟩
    refine ⟨⟨x.x, x.y, (expandCellsWithNeighbors f).cellLivesNextRound x⟩,
      ?_, hco, hrule⟩
    refine List.mem_filter.mpr ⟨List.mem_map.mpr ⟨x, hx, rfl⟩, hrule⟩

end PlayingField

namespace PlayingField

/-- The generation returned by `spawnNew` has life exactly where the standard
Conway step of the original live set has life. -/
theorem spawnNew_hasLifeAt_eq_conwayStep {f : PlayingField}
    (h : f.distinctCoords) (c : Coords) :
    (f.spawnNew).1.hasLifeAt c = conwayStep (f.hasLifeAt) c := by
  have hE := hasLifeAt_expand f
  have hEnd : ((expandCellsWithNeighbors f).cells.map Cell.coords).Nodup :=
    distinctCoords_expand h
  cases hc : (expandCellsWithNeighbors f).hasCellAt c with
  | false =>
    have hlhs : (f.spawnNew).1.hasLifeAt c = false := by
      rw [← Bool.not_eq_true, spawnNew_fst_hasLife_iff]
      rintro ⟨x, hx, hxc, -⟩
      have hcc : (expandCellsWithNeighbors f).hasCellAt c = true :=
        hasCellAt_iff.mpr ⟨x, hx, hxc⟩
      rw [hc] at hcc
      exact Bool.noConfusion hcc
    rw [hlhs, conwayStep_eq_false_of_not_stored hc]
  | true =>
    obtain ⟨z, hz, hzc⟩ := hasCellAt_iff.mp hc
    have hzlife : z.hasLife = f.hasLifeAt c := by
      rw [Bool.eq_iff_iff]
      constructor
      · intro hzl
        rw [← hE]
        exact hasLifeAt_iff.mpr ⟨z, hz, hzc, hzl⟩
      · intro hfl
        rw [← hE c] at hfl
        obtain ⟨w, hw, hwc, hwl⟩ := hasLifeAt_iff.mp hfl
        have hwz : w = z :=
          List.inj_on_of_nodup_map hEnd hw hz (hwc.trans hzc.symm)
        rw [← hwz]
        exact hwl
    have hrule := cellLivesNextRound_eq_conwayStep hE hzc hzlife
    rw [Bool.eq_iff_iff, spawnNew_fst_hasLife_iff]
    constructor
    · rintro ⟨x, hx, hxc, hxl⟩
      have hxz : x = z :=
        List.inj_on_of_nodup_map hEnd hx hz (hxc.trans hzc.symm)
      rw [← hrule, ← hxz]
      exact hxl
    · intro hcs
      refine ⟨z, hz, hzc, ?_⟩
      rw [hrule]
      exact hcs

end PlayingField

/-!
Lemmas about the reference (heap) model.
-/

namespace RefModel

theorem getCloneH_eq (refs : Refs) : getCloneH refs = refs :=
  List.map_id' refs

/-- Dereferencing below the old length is unchanged by allocation. -/
theorem deref_append {h : Heap} (t : Heap) {r : Nat} (hr : r < h.length) :
    deref (h ++ t) r = deref h r :=
  List.getD_append h t _ r hr

/-- Fields whose records all read back the same observe the same life. -/
theorem hasLifeAtH_congr {h h' : Heap} {refs : Refs}
    (hd : ∀ r ∈ refs, deref h' r = deref h r) (c : Coords) :
    hasLifeAtH h' refs c = hasLifeAtH h refs c := by
  unfold hasLifeAtH
  have hfil :
      (refs.filter fun r =>
          cellMatches c (deref h' r) && (deref h' r).hasLife) =
        refs.filter fun r =>
          cellMatches c (deref h r) && (deref h r).hasLife := by
    refine List.filter_congr fun r hr => ?_
    rw [hd r hr]
  rw [hfil]

/-- A reference whose record is alive is in range (the out-of-range default
record is dead). -/
theorem alive_ref_lt {h : Heap} {refs : Refs}
    (halive : ∀ r ∈ refs, (deref h r).hasLife = true) :
    ∀ r ∈ refs, r < h.length := by
  intro r hr
  by_contra hge
  push_neg at hge
  have hdef : deref h r = ⟨0, 0, false⟩ := List.getD_eq_default _ _ hge
  have := halive r hr
  rw [hdef] at this
  exact Bool.noConfusion this

/-- Setting the flag of a record that is already alive is a no-op on the
heap. -/
theorem setAliveAt_of_alive :
    ∀ (l : List Cell) (r : Nat), (l.getD r ⟨0, 0, false⟩).hasLife = true →
      PlayingField.setAliveAt l r = l := by
  intro l
  induction l with
  | nil => intro r _; rfl
  | cons a t ih =>
    intro r hr
    cases r with
    | zero =>
      rw [List.getD_cons_zero] at hr
      show { a with hasLife := true } :: t = a :: t
      rw [show ({ a with hasLife := true } : Cell) = a by
        obtain ⟨ax, ay, ah⟩ := a
        simp only at hr
        rw [hr]]
    | succ n =>
      rw [List.getD_cons_succ] at hr
      show a :: PlayingField.setAliveAt t n = a :: t
      rw [ih n hr]

/-- The slot `findIndex` reports holds a reference from the array. -/
theorem findRefIdx_some_getD_mem {h : Heap} {c : Coords} :
    ∀ {refs : Refs} {i : Nat}, findRefIdx h c refs = some i →
      refs.getD i 0 ∈ refs := by
  intro refs
  induction refs with
  | nil => intro i hi; exact Option.noConfusion hi
  | cons r rest ih =>
    intro i hi
    unfold findRefIdx at hi
    by_cases hm : cellMatches c (deref h r) = true
    · rw [if_pos hm] at hi
      obtain rfl := Option.some.inj hi
      rw [List.getD_cons_zero]
      exact List.mem_cons_self r rest
    · rw [if_neg hm] at hi
      cases hf : findRefIdx h c rest with
      | none => rw [hf] at hi; exact Option.noConfusion hi
      | some j =>
        rw [hf] at hi
        simp only [Option.map_some'] at hi
        obtain rfl := Option.some.inj hi
        rw [List.getD_cons_succ]
        exact List.mem_cons_of_mem r (ih hf)

theorem killLifeAtH_heap (h : Heap) (refs : Refs) (c : Coords) :
    (killLifeAtH h refs c).1 = h := by
  unfold killLifeAtH
  cases findRefIdx h c refs <;> rfl

/-- `addLifeAt` leaves every reference of an all-alive array reading the
same. -/
theorem addLifeAtH_frame {h : Heap} {refs : Refs} (c : Coords)
    (halive : ∀ r ∈ refs, (deref h r).hasLife = true) :
    ∀ r ∈ refs, deref (addLifeAtH h refs c).1 r = deref h r := by
  intro r hr
  unfold addLifeAtH
  cases hf : findRefIdx h c refs with
  | some i =>
    have hmem := findRefIdx_some_getD_mem hf
    have := setAliveAt_of_alive h (refs.getD i 0) (halive _ hmem)
    simp only [this]
  | none =>
    simp only
    exact deref_append _ (alive_ref_lt halive r hr)

/-- A fold whose steps only allocate extends the heap. -/
theorem foldl_heap_extends {β : Type} {g : Heap × Refs → β → Heap × Refs}
    (hg : ∀ s b, ∃ t, (g s b).1 = s.1 ++ t) :
    ∀ (bs : List β) (s : Heap × Refs), ∃ t, (bs.foldl g s).1 = s.1 ++ t := by
  intro bs
  induction bs with
  | nil => exact fun s => ⟨[], by simp⟩
  | cons b rest ih =>
    intro s
    obtain ⟨t₁, h₁⟩ := hg s b
    obtain ⟨t₂, h₂⟩ := ih (g s b)
    exact ⟨t₁ ++ t₂, by rw [List.foldl_cons, h₂, h₁, List.append_assoc]⟩

theorem expandStepH_heap (cell : Cell) (s : Heap × Refs) (o : Int × Int) :
    ∃ t, (expandStepH cell s o).1 = s.1 ++ t := by
  unfold expandStepH
  split
  · exact ⟨[], by simp⟩
  · exact ⟨[⟨cell.x + o.1, cell.y + o.2, false⟩], rfl⟩

theorem expandAroundH_heap :
    ∀ (s : Heap × Refs) (r : Nat), ∃ t, (expandAroundH s r).1 = s.1 ++ t := by
  intro s r
  unfold expandAroundH
  exact foldl_heap_extends (expandStepH_heap (deref s.1 r))
    PlayingField.neighborOffsets s

theorem expandH_heap (h : Heap) (refs : Refs) :
    ∃ t, (expandH h refs).1 = h ++ t :=
  foldl_heap_extends expandAroundH_heap refs (h, refs)

theorem spawnNewH_heap (h : Heap) (refs : Refs) :
    ∃ t, (spawnNewH h refs).1 = h ++ t := by
  obtain ⟨t, ht⟩ := expandH_heap h refs
  refine ⟨t ++ ((expandH h refs).2.map fun r =>
      ({ x := (deref (expandH h refs).1 r).x,
         y := (deref (expandH h refs).1 r).y,
         hasLife := cellLivesNextRoundH (expandH h refs).1 (expandH h refs).2
           (deref (expandH h refs).1 r) } : Cell)), ?_⟩
  show (expandH h refs).1 ++ _ = _
  rw [ht, List.append_assoc]

/-- Every mutator of the claim leaves every reference of an all-alive array
reading back the same record. -/
theorem applyMutatorH_frame (m : MutatorOp) {h : Heap} {refs : Refs}
    (halive : ∀ r ∈ refs, (deref h r).hasLife = true) :
    ∀ r ∈ refs, deref (applyMutatorH m h refs).1 r = deref h r := by
  intro r hr
  cases m with
  | add c => exact addLifeAtH_frame c halive r hr
  | kill c =>
    show deref (killLifeAtH h refs c).1 r = deref h r
    rw [killLifeAtH_heap]
  | toggle c =>
    show deref (toggleCellH h refs c).1 r = deref h r
    unfold toggleCellH
    split
    · rw [killLifeAtH_heap]
    · exact addLifeAtH_frame c halive r hr
  | spawn =>
    show deref (spawnNewH h refs).1 r = deref h r
    obtain ⟨t, ht⟩ := spawnNewH_heap h refs
    rw [ht]
    exact deref_append _ (alive_ref_lt halive r hr)

end RefModel

/-!
The claims.
-/

open PlayingField RefModel

/-- C1: for every Field whose stored cells have pairwise-distinct coordinates,
the live-cell set of the Field returned by `spawnNew()` equals the standard
Conway step of the original live-cell set — a coordinate is live in the result
iff it has exactly 3 live Moore neighbors in the original, or exactly 2 and is
itself live there. -/
theorem claim_C1_spawnNew_is_conway_step (f : PlayingField)
    (h : f.distinctCoords) (c : Coords) :
    (f.spawnNew).1.hasLifeAt c = conwayStep (f.hasLifeAt) c :=
  spawnNew_hasLifeAt_eq_conwayStep h c

/-- Witness for C1 on the blinker row at coordinate (1,1). -/
theorem claim_C1_witness :
    (blinker.spawnNew).1.hasLifeAt ⟨1, 1⟩ =
      conwayStep (blinker.hasLifeAt) ⟨1, 1⟩ :=
  claim_C1_spawnNew_is_conway_step blinker (by decide) ⟨1, 1⟩

/-- C2 counterexample: a Field `b` storing only the dead placeholder record at
(0,0), diffed against an empty Field `a`, returns that dead record — so a Cell
stored in `b` with `hasLife` false can appear in the result, contrary to the
claim. -/
theorem claim_C2_counterexample :
    (PlayingField.mk []).getDifferenceCells ⟨[⟨0, 0, false⟩]⟩ =
      [⟨0, 0, false⟩] ∧ (⟨0, 0, false⟩ : Cell).hasLife = false := by
  decide

/-- C2 amended: `a.getDifferenceCells b` returns exactly the Cells stored in
`b` — live or dead — whose coordinate has no life in `a`; dead placeholder
entries of `b` are not excluded. -/
theorem claim_C2_diff_characterization (a b : PlayingField) (cell : Cell) :
    cell ∈ a.getDifferenceCells b ↔
      cell ∈ b.cells ∧ a.hasLifeAt cell.coords = false := by
  unfold getDifferenceCells getCells
  rw [List.map_id', List.mem_filter, Bool.not_eq_true']

/-- C3: every single operation — toggleCell, addLifeAt, killLifeAt, both
Fields produced by spawnNew, and getClone — preserves pairwise-distinct
stored coordinates. -/
theorem claim_C3_distinct_invariant (f : PlayingField)
    (h : f.distinctCoords) (c : Coords) :
    (f.toggleCell c).distinctCoords ∧ (f.addLifeAt c).distinctCoords ∧
      (f.killLifeAt c).distinctCoords ∧ (f.spawnNew).1.distinctCoords ∧
      (f.spawnNew).2.distinctCoords ∧ (f.getClone).distinctCoords :=
  ⟨distinctCoords_toggleCell h c, distinctCoords_addLifeAt h c,
    distinctCoords_killLifeAt h c, distinctCoords_spawnNew_fst h,
    distinctCoords_spawnNew_snd h, distinctCoords_getClone h⟩

/-- Witness for C3 on the blinker row at coordinate (0,0). -/
theorem claim_C3_witness :
    (blinker.toggleCell ⟨0, 0⟩).distinctCoords ∧
      (blinker.addLifeAt ⟨0, 0⟩).distinctCoords ∧
      (blinker.killLifeAt ⟨0, 0⟩).distinctCoords ∧
      (blinker.spawnNew).1.distinctCoords ∧
      (blinker.spawnNew).2.distinctCoords ∧
      (blinker.getClone).distinctCoords :=
  claim_C3_distinct_invariant blinker (by decide) ⟨0, 0⟩

/-- C4: for every Field, `getCells()` of the Field returned by `spawnNew()`
contains no record with `hasLife` false. -/
theorem claim_C4_spawnNew_stores_only_alive (f : PlayingField) :
    ((f.spawnNew).1.getCells.all fun cell => cell.hasLife) = true := by
  unfold getCells
  rw [List.map_id']
  exact spawnNew_fst_all_alive f

set_option maxRecDepth 8000 in
/-- C5: the horizontal blinker row (0,0),(1,0),(2,0) steps to exactly the
vertical triplet (1,-1),(1,0),(1,1), and a second step restores exactly the
original row. -/
theorem claim_C5_blinker_oscillates :
    (∀ c : Coords, (blinker.spawnNew).1.hasLifeAt c = true ↔
      (c = ⟨1, -1⟩ ∨ c = ⟨1, 0⟩ ∨ c = ⟨1, 1⟩)) ∧
    (∀ c : Coords, ((blinker.spawnNew).1.spawnNew).1.hasLifeAt c = true ↔
      (c = ⟨0, 0⟩ ∨ c = ⟨1, 0⟩ ∨ c = ⟨2, 0⟩)) := by
  have h1 : (blinker.spawnNew).1 =
      ⟨[⟨1, 0, true⟩, ⟨1, -1, true⟩, ⟨1, 1, true⟩]⟩ := by decide
  have h2 : ((blinker.spawnNew).1.spawnNew).1 =
      ⟨[⟨1, 0, true⟩, ⟨0, 0, true⟩, ⟨2, 0, true⟩]⟩ := by decide
  constructor
  · intro c
    rw [h1, hasLifeAt_iff]
    constructor
    · rintro ⟨cell, hmem, hco, -⟩
      simp only [List.mem_cons, List.not_mem_nil, or_false] at hmem
      rcases hmem with rfl | rfl | rfl
      · exact Or.inr (Or.inl hco.symm)
      · exact Or.inl hco.symm
      · exact Or.inr (Or.inr hco.symm)
    · rintro (rfl | rfl | rfl)
      · exact ⟨⟨1, -1, true⟩, by decide, rfl, rfl⟩
      · exact ⟨⟨1, 0, true⟩, by decide, rfl, rfl⟩
      · exact ⟨⟨1, 1, true⟩, by decide, rfl, rfl⟩
  · intro c
    rw [h2, hasLifeAt_iff]
    constructor
    · rintro ⟨cell, hmem, hco, -⟩
      simp only [List.mem_cons, List.not_mem_nil, or_false] at hmem
      rcases hmem with rfl | rfl | rfl
      · exact Or.inr (Or.inl hco.symm)
      · exact Or.inl hco.symm
      · exact Or.inr (Or.inr hco.symm)
    · rintro (rfl | rfl | rfl)
      · exact ⟨⟨0, 0, true⟩, by decide, rfl, rfl⟩
      · exact ⟨⟨1, 0, true⟩, by decide, rfl, rfl⟩
      · exact ⟨⟨2, 0, true⟩, by decide, rfl, rfl⟩

/-- C6 counterexample: cloning a Field that stores a dead placeholder at
(0,0) and then toggling (0,0) on the original flips the shared record, so the
clone's `hasLifeAt (0,0)` changes from false to true — the clone is not
independent of the original. -/
theorem claim_C6_counterexample :
    hasLifeAtH [⟨0, 0, false⟩] (getCloneH [0]) ⟨0, 0⟩ = false ∧
    hasLifeAtH
        (applyMutatorH (MutatorOp.toggle ⟨0, 0⟩) [⟨0, 0, false⟩] [0]).1
        (getCloneH [0]) ⟨0, 0⟩ = true := by
  decide

/-- C6 amended: `getClone` copies the cells array but shares the cell records
with the original, so toggling a stored dead placeholder is visible through
the clone; however, when every stored record of the Field is alive, every
mutator (toggleCell, addLifeAt, killLifeAt, spawnNew) applied to the original
leaves the clone's `hasLifeAt` unchanged at every coordinate (and, the clone
holding the very same references, symmetrically). -/
theorem claim_C6_clone_unaffected (h : Heap) (refs : Refs)
    (halive : ∀ r ∈ refs, (deref h r).hasLife = true)
    (m : MutatorOp) (c : Coords) :
    hasLifeAtH (applyMutatorH m h refs).1 (getCloneH refs) c =
      hasLifeAtH h (getCloneH refs) c := by
  rw [getCloneH_eq]
  exact hasLifeAtH_congr (applyMutatorH_frame m halive) c

/-- Witness for the amended C6 on a one-live-cell Field with a toggle at
(5,5). -/
theorem claim_C6_witness :
    hasLifeAtH
        (applyMutatorH (MutatorOp.toggle ⟨5, 5⟩) [⟨0, 0, true⟩] [0]).1
        (getCloneH [0]) ⟨0, 0⟩ =
      hasLifeAtH [⟨0, 0, true⟩] (getCloneH [0]) ⟨0, 0⟩ :=
  claim_C6_clone_unaffected [⟨0, 0, true⟩] [0] (by decide)
    (MutatorOp.toggle ⟨5, 5⟩) ⟨0, 0⟩

/-- C7: after `spawnNew()` the receiver stores exactly its previously-alive
records (dead placeholders, pre-existing or added by expansion, are pruned),
and both the receiver and the returned Field store only alive records. -/
theorem claim_C7_spawnNew_prunes_receiver (f : PlayingField) :
    (f.spawnNew).2.cells = (f.cells.filter fun cell => cell.hasLife) ∧
      ((f.spawnNew).2.cells.all fun cell => cell.hasLife) = true ∧
      ((f.spawnNew).1.cells.all fun cell => cell.hasLife) = true :=
  ⟨spawnNew_snd_cells f, spawnNew_snd_all_alive f, spawnNew_fst_all_alive f⟩

/-- C8 counterexample: a Field storing only the dead placeholder record at
(0,0) diffed against itself returns that record, not the empty sequence. -/
theorem claim_C8_counterexample :
    (PlayingField.mk [⟨0, 0, false⟩]).getDifferenceCells
      ⟨[⟨0, 0, false⟩]⟩ ≠ [] := by
  decide

/-- C8 amended: `f.getDifferenceCells f` is empty for every Field whose
stored records are all alive (in particular for every `spawnNew` result);
with dead placeholders stored, the self-difference can be non-empty. -/
theorem claim_C8_self_diff_empty (f : PlayingField)
    (h : ∀ cell ∈ f.cells, cell.hasLife = true) :
    f.getDifferenceCells f = [] := by
  unfold getDifferenceCells getCells
  rw [List.map_id', List.filter_eq_nil_iff]
  intro cell hcell
  have hl : f.hasLifeAt cell.coords = true :=
    hasLifeAt_iff.mpr ⟨cell, hcell, rfl, h cell hcell⟩
  rw [Bool.not_eq_true', hl]
  exact fun hh => Bool.noConfusion hh

/-- Witness for the amended C8 on a one-live-cell Field. -/
theorem claim_C8_witness :
    (PlayingField.mk [⟨0, 0, true⟩]).getDifferenceCells
      ⟨[⟨0, 0, true⟩]⟩ = [] :=
  claim_C8_self_diff_empty ⟨[⟨0, 0, true⟩]⟩ (by decide)

/-- C9: on a Field with pairwise-distinct stored coordinates, toggling the
same coordinate twice restores `hasLifeAt` at every coordinate. -/
theorem claim_C9_toggle_twice (f : PlayingField) (h : f.distinctCoords)
    (c d : Coords) :
    ((f.toggleCell c).toggleCell c).hasLifeAt d = f.hasLifeAt d := by
  by_cases hdc : d = c
  · subst hdc
    rw [hasLifeAt_toggleCell_self (distinctCoords_toggleCell h d) d,
      hasLifeAt_toggleCell_self h d, Bool.not_not]
  · rw [hasLifeAt_toggleCell_other _ hdc, hasLifeAt_toggleCell_other f hdc]

/-- Witness for C9 on the blinker row at (0,0). -/
theorem claim_C9_witness :
    ((blinker.toggleCell ⟨0, 0⟩).toggleCell ⟨0, 0⟩).hasLifeAt ⟨0, 0⟩ =
      blinker.hasLifeAt ⟨0, 0⟩ :=
  claim_C9_toggle_twice blinker (by decide) ⟨0, 0⟩ ⟨0, 0⟩

/-- C10: on a Field with pairwise-distinct stored coordinates, a single
`toggleCell c` negates `hasLifeAt c` (a stored dead placeholder at `c`
becomes alive) and leaves `hasLifeAt` unchanged at every other coordinate. -/
theorem claim_C10_toggle_effect (f : PlayingField) (h : f.distinctCoords)
    (c : Coords) :
    (f.toggleCell c).hasLifeAt c = !f.hasLifeAt c ∧
      ∀ d, d ≠ c → (f.toggleCell c).hasLifeAt d = f.hasLifeAt d :=
  ⟨hasLifeAt_toggleCell_self h c, fun _ hd => hasLifeAt_toggleCell_other f hd⟩

/-- Witness for C10 on a Field storing a dead placeholder at (0,0): the
toggle turns it alive and leaves (5,5) unchanged. -/
theorem claim_C10_witness :
    ((PlayingField.mk [⟨0, 0, false⟩]).toggleCell ⟨0, 0⟩).hasLifeAt ⟨0, 0⟩ =
      !(PlayingField.mk [⟨0, 0, false⟩]).hasLifeAt ⟨0, 0⟩ ∧
    ((PlayingField.mk [⟨0, 0, false⟩]).toggleCell ⟨0, 0⟩).hasLifeAt ⟨5, 5⟩ =
      (PlayingField.mk [⟨0, 0, false⟩]).hasLifeAt ⟨5, 5⟩ :=
  ⟨(claim_C10_toggle_effect ⟨[⟨0, 0, false⟩]⟩ (by decide) ⟨0, 0⟩).1,
    (claim_C10_toggle_effect ⟨[⟨0, 0, false⟩]⟩ (by decide) ⟨0, 0⟩).2
      ⟨5, 5⟩ (by decide)⟩
